import Mathlib

/-!
The Twitter input plugin (`plugins/inputs/twitter/twitter.go`)

A shallow embedding of the plugin and the properties of its ingestion loop.

Modelling conventions.

* A Go `string` is a list of Unicode code points (`GoStr`).  The strings the plugin
  handles (tweet text decoded from JSON, the configured keyword string) are valid
  UTF-8; on valid UTF-8 the byte-wise `strings.Split`, `strings.Contains` and the
  rune-wise `strings.ToLower` agree with the same operations on code points.
* The accumulator is an interface; a run is described by the sequence of calls made on
  it, each with the argument values at the time of the call.
* The stream channel is described by the items dequeued from it, each paired with the
  outcome of the non-blocking `select` on `t.ctx.Done()` made for that item.
* Library code outside the repository that the loop depends on is a parameter
  (`Lib`): the Unicode case table behind `unicode.ToLower` for non-ASCII runes, and
  the remainder of `time.Parse` after the leading weekday of the `RubyDate` layout.
-/

namespace TwitterPlugin

/-- A Go string, as its sequence of code points. -/
abbrev GoStr := List Char

/-- An instant, as returned by `CreatedAtTime`. -/
abbrev Time := Int

/-- Library behaviour outside the repository. -/
structure Lib where
  /-- The value of `unicode.ToLower` on runes above `unicode.MaxASCII`. -/
  caseTable : Char → Char
  /-- What `time.Parse(time.RubyDate, v)` returns once the weekday of `v` was accepted. -/
  parseAfterWeekday : GoStr → Except GoStr Time

/-! ## `strings` -/

/-- The per-rune `unicode.ToLower`: ASCII is handled directly, the rest by the table. -/
def toLowerRune (lib : Lib) (r : Char) : Char :=
  if r.toNat ≤ 0x7F then
    if 'A'.toNat ≤ r.toNat ∧ r.toNat ≤ 'Z'.toNat then Char.ofNat (r.toNat + ('a'.toNat - 'A'.toNat))
    else r
  else lib.caseTable r

/-- The `strings.ToLower` function. -/
def ToLower (lib : Lib) (s : GoStr) : GoStr :=
  s.map (toLowerRune lib)

/-- The `strings.HasPrefix` function. -/
def HasPrefix : GoStr → GoStr → Bool
  | _, [] => true
  | [], _ :: _ => false
  | c :: s, d :: p => c == d && HasPrefix s p

/-- The `strings.Contains` function: `substr` occurs at some position of `s`. -/
def Contains : GoStr → GoStr → Bool
  | [], substr => HasPrefix [] substr
  | c :: s, substr => HasPrefix (c :: s) substr || Contains s substr

/-- The `strings.Split(s, ",")` function: the pieces of `s` between its commas, in order
(one more piece than there are commas). -/
def Split : GoStr → List GoStr
  | [] => [[]]
  | c :: s =>
    if c = ',' then [] :: Split s
    else
      match Split s with
      | [] => [[c]]
      | p :: ps => (c :: p) :: ps

/-- The `strings.Join(a, ",")` function. -/
def Join : List GoStr → GoStr
  | [] => []
  | [p] => p
  | p :: q :: ps => p ++ ',' :: Join (q :: ps)

/-! ## Go maps -/

/-- Assignment `m[k] = v` on a map kept as an association list without repeated keys. -/
def mapSet {β : Type} : List (GoStr × β) → GoStr → β → List (GoStr × β)
  | [], k, v => [(k, v)]
  | (k', v') :: m, k, v => if k' = k then (k, v) :: m else (k', v') :: mapSet m k v

/-- Lookup `m[k]`. -/
def mapGet {β : Type} : List (GoStr × β) → GoStr → Option β
  | [], _ => none
  | (k', v') :: m, k => if k' = k then some v' else mapGet m k

/-! ## Data -/

/-- The fields of `anaconda.User` that the plugin reads. -/
structure User where
  FollowersCount : Int
  ScreenName : GoStr
  FriendsCount : Int
  FavouritesCount : Int
  Verified : Bool
deriving DecidableEq

/-- The fields of `anaconda.Tweet` that the plugin reads. -/
structure Tweet where
  Lang : GoStr
  RetweetCount : Int
  IdStr : GoStr
  User : User
  Text : GoStr
  CreatedAt : GoStr
deriving DecidableEq

/-- An item received on `stream.C`: a tweet, or a value of any other dynamic type. -/
inductive Item where
  | tweet (t : Tweet)
  | other
deriving DecidableEq

/-- A value stored in the `fields` map (`interface{}`). -/
inductive FieldValue where
  | int (n : Int)
  | str (s : GoStr)
  | bool (b : Bool)
deriving DecidableEq

abbrev Fields := List (GoStr × FieldValue)
abbrev Tags := List (GoStr × GoStr)

/-- A call on the `telegraf.Accumulator`. -/
inductive AccCall where
  | AddFields (measurement : GoStr) (fields : Fields) (tags : Tags) (t : Time)
  | AddError (err : GoStr)
deriving DecidableEq

/-! ## `time.Parse(time.RubyDate, ·)` -/

/-- The table `shortDayNames` of package `time`. -/
def shortDayNames : List GoStr :=
  ["Sun".toList, "Mon".toList, "Tue".toList, "Wed".toList, "Thu".toList, "Fri".toList,
   "Sat".toList]

/-- The case-insensitive comparison `match` of package `time`, on strings of equal length. -/
def timeMatch : GoStr → GoStr → Bool
  | [], _ => true
  | _ :: _, [] => false
  | c1 :: s1, c2 :: s2 =>
    if c1 = c2 then timeMatch s1 s2
    else
      let d1 := c1.toNat ||| 0x20
      let d2 := c2.toNat ||| 0x20
      if d1 ≠ d2 ∨ d1 < 'a'.toNat ∨ d1 > 'z'.toNat then false else timeMatch s1 s2

/-- The `lookup(shortDayNames, v)` step: does `v` start with a weekday name. -/
def lookupWeekday (v : GoStr) : Bool :=
  shortDayNames.any (fun d => decide (d.length ≤ v.length) && timeMatch (v.take d.length) d)

/-- The error `errBad` of package `time`, which `Parse` reports for a value that does not
start with a weekday; an error value is represented by its message. -/
def errBad : GoStr := "bad value for field".toList

/-- The method `Tweet.CreatedAtTime`, which is `time.Parse(time.RubyDate, t.CreatedAt)`:
the layout starts with the weekday, so a value without one is rejected first. -/
def CreatedAtTime (lib : Lib) (t : Tweet) : Except GoStr Time :=
  if lookupWeekday t.CreatedAt then lib.parseAfterWeekday t.CreatedAt
  else Except.error errBad

/-! ## The plugin -/

/-- The handle returned by `anaconda.NewTwitterApi`. -/
structure TwitterApi where
  accessToken : GoStr
  accessTokenSecret : GoStr
deriving DecidableEq

/-- The plugin value.  A pointer field is `none` when nil; `wg` holds the counter of the
wait group, `ctx` whether the context is cancelled, `cancel` the cancel function. -/
structure Twitter where
  ConsumerKey : GoStr
  ConsumerSecret : GoStr
  AccessToken : GoStr
  AccessTokenSecret : GoStr
  KeywordsToTrack : GoStr
  api : Option TwitterApi
  wg : Option Nat
  ctx : Option Bool
  cancel : Option Unit
deriving DecidableEq

/-- The value built by the registered constructor, `&Twitter{}` with its configuration. -/
def Twitter.new (ck cs tok sec kw : GoStr) : Twitter :=
  { ConsumerKey := ck, ConsumerSecret := cs, AccessToken := tok, AccessTokenSecret := sec,
    KeywordsToTrack := kw, api := none, wg := none, ctx := none, cancel := none }

/-- The strings `"lang"`, `"keyword"` and `"tweets"`. -/
def kLang : GoStr := "lang".toList
def kKeyword : GoStr := "keyword".toList
def mTweets : GoStr := "tweets".toList

/-- The `fields` map built for a tweet (lines 90-102). -/
def tweetFields (tweet : Tweet) : Fields :=
  let fields : Fields := []
  let fields := mapSet fields "retweet_count".toList (FieldValue.int tweet.RetweetCount)
  let fields := mapSet fields "tweet_id".toList (FieldValue.str tweet.IdStr)
  let fields := mapSet fields "follower_count".toList (FieldValue.int tweet.User.FollowersCount)
  let fields := mapSet fields "screen_name".toList (FieldValue.str tweet.User.ScreenName)
  let fields := mapSet fields "friends_count".toList (FieldValue.int tweet.User.FriendsCount)
  let fields := mapSet fields "favorites_count".toList (FieldValue.int tweet.User.FavouritesCount)
  let fields := mapSet fields "user_verified".toList (FieldValue.bool tweet.User.Verified)
  let fields := mapSet fields "raw".toList (FieldValue.str tweet.Text)
  fields

/-- The `tags` map before the keyword loop (lines 91-94). -/
def tweetTags (tweet : Tweet) : Tags :=
  let tags : Tags := []
  if tweet.Lang ≠ [] then mapSet tags kLang tweet.Lang else tags

/-- The loop over `keywordList` (lines 108-113): the state is the `tags` map, which the
loop mutates, and the calls made on the accumulator so far. -/
def keywordLoop (lib : Lib) (tweet : Tweet) (fields : Fields) (time : Time) :
    List GoStr → Tags × List AccCall → Tags × List AccCall
  | [], st => st
  | keyword :: rest, (tags, acc) =>
    if Contains (ToLower lib tweet.Text) (ToLower lib keyword) then
      let tags := mapSet tags kKeyword (ToLower lib keyword)
      keywordLoop lib tweet fields time rest (tags, acc ++ [AccCall.AddFields mTweets fields tags time])
    else keywordLoop lib tweet fields time rest (tags, acc)

/-- The body of the `default` branch for one item (lines 88-115). -/
def processItem (lib : Lib) (keywordList : List GoStr) (item : Item) (acc : List AccCall) :
    List AccCall :=
  match item with
  | Item.tweet tweet =>
    let fields := tweetFields tweet
    let tags := tweetTags tweet
    match CreatedAtTime lib tweet with
    | Except.error err => acc ++ [AccCall.AddError err]
    | Except.ok time => (keywordLoop lib tweet fields time keywordList (tags, acc)).2
  | Item.other => acc

/-- What a run of `fetchTweets` did. -/
structure Outcome where
  /-- The calls made on the accumulator, in order. -/
  calls : List AccCall
  /-- Whether `stream.Stop()` was called. -/
  streamStopped : Bool
  /-- How many items of the stream were handled by the `default` branch. -/
  processed : Nat
  /-- Whether the deferred `t.wg.Done()` ran. -/
  wgDone : Bool
deriving DecidableEq

/-- The `for item := range stream.C` loop (lines 82-117).  Each dequeued item comes with
the outcome of the `select` on `t.ctx.Done()` made for it. -/
def streamLoop (lib : Lib) (keywordList : List GoStr) : List (Bool × Item) → Outcome → Outcome
  | [], o => o
  | (done, item) :: rest, o =>
    if done then { o with streamStopped := true }
    else
      streamLoop lib keywordList rest
        { o with calls := processItem lib keywordList item o.calls, processed := o.processed + 1 }

/-- The function `fetchTweets` (lines 75-118). -/
def fetchTweets (lib : Lib) (t : Twitter) (stream : List (Bool × Item)) : Outcome :=
  let keywordList := Split t.KeywordsToTrack
  let o := streamLoop lib keywordList stream
    { calls := [], streamStopped := false, processed := 0, wgDone := false }
  { o with wgDone := true }

/-- The method `Start` (lines 53-66), up to the launch of the goroutine. -/
def Start (t : Twitter) : Twitter :=
  { t with
    api := some { accessToken := t.AccessToken, accessTokenSecret := t.AccessTokenSecret }
    ctx := some false
    cancel := some ()
    wg := some 1 }

/-- The effect of the goroutine's deferred `t.wg.Done()` on the plugin value. -/
def wgDone (t : Twitter) : Twitter :=
  { t with wg := t.wg.map (fun n => n - 1) }

/-- How a call of `Stop` ends. -/
inductive StopResult where
  /-- A nil function was called or a nil pointer dereferenced: the call panics. -/
  | panic
  /-- The context was cancelled and `Wait` is blocked on a running loop. -/
  | waiting (t : Twitter)
  /-- The call returned. -/
  | returned (t : Twitter)
deriving DecidableEq

/-- The method `Stop` (lines 69-73). -/
def Stop (t : Twitter) : StopResult :=
  match t.cancel with
  | none => StopResult.panic
  | some _ =>
    let t := { t with ctx := t.ctx.map (fun _ => true) }
    match t.wg with
    | none => StopResult.panic
    | some 0 => StopResult.returned t
    | some (_ + 1) => StopResult.waiting t

/-! ## Observations on calls -/

/-- The value of the `keyword` tag of a call (`none` for an `AddError`). -/
def keywordOf : AccCall → Option GoStr
  | AccCall.AddFields _ _ tags _ => mapGet tags kKeyword
  | AccCall.AddError _ => none

/-- The value of the `lang` tag of a call. -/
def langOf : AccCall → Option GoStr
  | AccCall.AddFields _ _ tags _ => mapGet tags kLang
  | AccCall.AddError _ => none

def isAddFields : AccCall → Bool
  | AccCall.AddFields _ _ _ _ => true
  | AccCall.AddError _ => false

/-- The calls the keyword loop makes for a tweet whose `tags` map is `base` on entry. -/
def keywordCalls (lib : Lib) (tweet : Tweet) (fields : Fields) (time : Time) (base : Tags)
    (keywordList : List GoStr) : List AccCall :=
  (keywordList.filter
      (fun keyword => Contains (ToLower lib tweet.Text) (ToLower lib keyword))).map
    (fun keyword =>
      AccCall.AddFields mTweets fields (mapSet base kKeyword (ToLower lib keyword)) time)

/-- The state in which `fetchTweets` enters its loop. -/
def start : Outcome :=
  { calls := [], streamStopped := false, processed := 0, wgDone := false }

/-! ## Inputs used to evaluate the model -/

/-- A library instance for evaluating the model on ASCII inputs: the case table is not
consulted there, and the rest of the date is taken to parse to instant `0`. -/
def asciiLib : Lib :=
  { caseTable := fun r => r, parseAfterWeekday := fun _ => Except.ok 0 }

def tweet1 : Tweet :=
  { Lang := "en".toList, RetweetCount := 3, IdStr := "42".toList,
    User := { FollowersCount := 10, ScreenName := "bob".toList, FriendsCount := 2,
              FavouritesCount := 5, Verified := false },
    Text := "I love my Cat and my dog".toList,
    CreatedAt := "Mon Sep 24 03:35:21 +0000 2012".toList }

def catBirdDog : Twitter := Twitter.new [] [] [] [] "cat,bird,dog".toList

def cat : Twitter := Twitter.new [] [] [] [] "cat".toList

/-- A tweet about a dog, with a creation time that parses. -/
def dogTweet : Tweet := { tweet1 with Text := "I love my dog".toList }

/-- A tweet about a dog, with an empty creation time. -/
def undatedDogTweet : Tweet := { dogTweet with CreatedAt := [] }

def upperCat : Twitter := Twitter.new [] [] [] [] "Cat".toList

def catCat : Twitter := Twitter.new [] [] [] [] "cat,Cat".toList

def catComma : Twitter := Twitter.new [] [] [] [] "cat,".toList

def mixed : Twitter := Twitter.new [] [] [] [] "Cat, dog,Cat".toList

/-! ## Lemmas on the string functions -/

theorem HasPrefix_iff (s p : GoStr) : HasPrefix s p = true ↔ p <+: s := by
  induction p generalizing s with
  | nil => simp [HasPrefix]
  | cons d p ih =>
    cases s with
    | nil => simp [HasPrefix]
    | cons c s =>
      simp only [HasPrefix, Bool.and_eq_true, beq_iff_eq, ih, List.cons_prefix_cons]
      constructor
      · rintro ⟨h1, h2⟩; exact ⟨h1.symm, h2⟩
      · rintro ⟨h1, h2⟩; exact ⟨h1.symm, h2⟩

theorem Contains_iff (s substr : GoStr) : Contains s substr = true ↔ substr <:+: s := by
  induction s with
  | nil =>
    simp only [Contains, HasPrefix_iff]
    constructor
    · intro h; exact h.isInfix
    · intro h; rw [List.infix_nil] at h; subst h; exact List.prefix_refl _
  | cons c s ih =>
    simp only [Contains, Bool.or_eq_true, HasPrefix_iff, ih, List.infix_cons_iff]

theorem Contains_nil (s : GoStr) : Contains s [] = true := by
  rw [Contains_iff]; exact List.nil_infix

theorem ToLower_nil (lib : Lib) : ToLower lib [] = [] := rfl

theorem Split_ne_nil (s : GoStr) : Split s ≠ [] := by
  induction s with
  | nil => simp [Split]
  | cons c s ih =>
    simp only [Split]
    split
    · simp
    · split <;> simp

theorem Join_cons_cons (c : Char) (p : GoStr) (ps : List GoStr) :
    Join ((c :: p) :: ps) = c :: Join (p :: ps) := by
  cases ps <;> simp [Join]

theorem Join_Split (s : GoStr) : Join (Split s) = s := by
  induction s with
  | nil => simp [Split, Join]
  | cons c s ih =>
    simp only [Split]
    split
    · rename_i h
      subst h
      cases hs : Split s with
      | nil => exact absurd hs (Split_ne_nil s)
      | cons q qs => rw [hs] at ih; simp [Join, ih]
    · split
      · rename_i hs; exact absurd hs (Split_ne_nil s)
      · rename_i p ps hs
        rw [hs] at ih
        rw [Join_cons_cons, ih]

theorem Split_no_comma (s : GoStr) : ∀ p ∈ Split s, ',' ∉ p := by
  induction s with
  | nil => simp [Split]
  | cons c s ih =>
    simp only [Split]
    split
    · intro p hp
      rcases List.mem_cons.1 hp with h | h
      · subst h; simp
      · exact ih p h
    · rename_i hc
      split
      · intro p hp
        simp only [List.mem_singleton] at hp
        subst hp
        simp only [List.mem_singleton]
        exact fun h => hc h.symm
      · rename_i q qs hs
        rw [hs] at ih
        intro p hp
        rcases List.mem_cons.1 hp with h | h
        · subst h
          intro hm
          rcases List.mem_cons.1 hm with h1 | h1
          · exact hc h1.symm
          · exact ih q (List.mem_cons_self _ _) h1
        · exact ih p (List.mem_cons_of_mem _ h)

theorem Split_append_comma_tail (a : GoStr) : [] ∈ (Split (a ++ [','])).tail := by
  induction a with
  | nil => simp [Split]
  | cons c a ih =>
    simp only [List.cons_append, Split]
    split
    · exact List.mem_of_mem_tail ih
    · split
      · rename_i hs; exact absurd hs (Split_ne_nil _)
      · rename_i q qs hs
        have hs2 : Split (a ++ [',']) = q :: qs := hs
        rw [hs2] at ih
        exact ih

theorem Split_append_comma (a : GoStr) : [] ∈ Split (a ++ [',']) :=
  List.mem_of_mem_tail (Split_append_comma_tail a)

/-! ## Lemmas on maps -/

theorem mapSet_mapSet {β : Type} (m : List (GoStr × β)) (k : GoStr) (v w : β) :
    mapSet (mapSet m k v) k w = mapSet m k w := by
  induction m with
  | nil => simp [mapSet]
  | cons e m ih =>
    obtain ⟨k', v'⟩ := e
    by_cases h : k' = k
    · simp [mapSet, h]
    · simp [mapSet, h, ih]

theorem mapGet_mapSet_self {β : Type} (m : List (GoStr × β)) (k : GoStr) (v : β) :
    mapGet (mapSet m k v) k = some v := by
  induction m with
  | nil => simp [mapSet, mapGet]
  | cons e m ih =>
    obtain ⟨k', v'⟩ := e
    by_cases h : k' = k
    · simp [mapSet, mapGet, h]
    · simp [mapSet, mapGet, h, ih]

theorem mapGet_mapSet_ne {β : Type} (m : List (GoStr × β)) (k k2 : GoStr) (v : β)
    (hne : k ≠ k2) : mapGet (mapSet m k v) k2 = mapGet m k2 := by
  induction m with
  | nil => simp [mapSet, mapGet, hne]
  | cons e m ih =>
    obtain ⟨k', v'⟩ := e
    by_cases h : k' = k
    · subst h; simp [mapSet, mapGet, hne]
    · by_cases h2 : k' = k2
      · subst h2; simp [mapSet, mapGet, h]
      · simp [mapSet, mapGet, h, h2, ih]

theorem kKeyword_ne_kLang : kKeyword ≠ kLang := by decide

/-! ## Lemmas on the loops -/

theorem keywordLoop_calls (lib : Lib) (tweet : Tweet) (fields : Fields) (time : Time)
    (base : Tags) (keywordList : List GoStr) (tags : Tags) (acc : List AccCall)
    (htags : ∀ w, mapSet tags kKeyword w = mapSet base kKeyword w) :
    (keywordLoop lib tweet fields time keywordList (tags, acc)).2 =
      acc ++ keywordCalls lib tweet fields time base keywordList := by
  induction keywordList generalizing tags acc with
  | nil => simp [keywordLoop, keywordCalls]
  | cons keyword rest ih =>
    by_cases hm : Contains (ToLower lib tweet.Text) (ToLower lib keyword) = true
    · have h1 : ∀ w, mapSet (mapSet tags kKeyword (ToLower lib keyword)) kKeyword w =
          mapSet base kKeyword w := by
        intro w; rw [mapSet_mapSet]; exact htags w
      simp only [keywordLoop, hm, if_true]
      rw [ih _ _ h1, htags]
      simp [keywordCalls, List.filter_cons, hm]
    · simp only [keywordLoop, hm]
      rw [if_neg (by simp), ih _ _ htags]
      simp [keywordCalls, List.filter_cons, hm]

theorem processItem_ok (lib : Lib) (keywordList : List GoStr) (tweet : Tweet) (time : Time)
    (acc : List AccCall) (h : CreatedAtTime lib tweet = Except.ok time) :
    processItem lib keywordList (Item.tweet tweet) acc =
      acc ++ keywordCalls lib tweet (tweetFields tweet) time (tweetTags tweet) keywordList := by
  simp only [processItem, h]
  exact keywordLoop_calls lib tweet _ time _ keywordList _ acc (fun _ => rfl)

theorem processItem_error (lib : Lib) (keywordList : List GoStr) (tweet : Tweet) (err : GoStr)
    (acc : List AccCall) (h : CreatedAtTime lib tweet = Except.error err) :
    processItem lib keywordList (Item.tweet tweet) acc = acc ++ [AccCall.AddError err] := by
  simp only [processItem, h]

theorem processItem_append (lib : Lib) (keywordList : List GoStr) (item : Item)
    (acc : List AccCall) :
    processItem lib keywordList item acc = acc ++ processItem lib keywordList item [] := by
  cases item with
  | other => simp [processItem]
  | tweet tweet =>
    cases h : CreatedAtTime lib tweet with
    | error err => rw [processItem_error _ _ _ _ _ h, processItem_error _ _ _ _ _ h]; simp
    | ok time => rw [processItem_ok _ _ _ _ _ h, processItem_ok _ _ _ _ _ h]; simp

theorem streamLoop_from (lib : Lib) (keywordList : List GoStr) (stream : List (Bool × Item))
    (o : Outcome) :
    streamLoop lib keywordList stream o =
      { calls := o.calls ++ (streamLoop lib keywordList stream start).calls
        streamStopped := o.streamStopped || (streamLoop lib keywordList stream start).streamStopped
        processed := o.processed + (streamLoop lib keywordList stream start).processed
        wgDone := o.wgDone } := by
  induction stream generalizing o with
  | nil => simp [streamLoop, start]
  | cons x rest ih =>
    obtain ⟨done, item⟩ := x
    cases done with
    | true => simp [streamLoop, start]
    | false =>
      have e2 := ih { calls := processItem lib keywordList item [], streamStopped := false,
                      processed := 1, wgDone := false }
      simp only [streamLoop, Bool.false_eq_true, if_false]
      rw [ih]
      simp only [start, Nat.zero_add]
      rw [e2, processItem_append lib keywordList item o.calls]
      simp [start, List.append_assoc, Nat.add_assoc]

theorem streamLoop_live (lib : Lib) (keywordList : List GoStr) (pre rest : List (Bool × Item))
    (o : Outcome) (hlive : ∀ x ∈ pre, x.1 = false) :
    streamLoop lib keywordList (pre ++ rest) o =
      streamLoop lib keywordList rest (streamLoop lib keywordList pre o) := by
  induction pre generalizing o with
  | nil => simp [streamLoop]
  | cons x pre ih =>
    obtain ⟨done, item⟩ := x
    have hd : done = false := hlive (done, item) (List.mem_cons_self _ _)
    subst hd
    simp only [List.cons_append, streamLoop, Bool.false_eq_true, if_false]
    exact ih _ (fun y hy => hlive y (List.mem_cons_of_mem _ hy))

theorem streamLoop_live_flags (lib : Lib) (keywordList : List GoStr) (pre : List (Bool × Item))
    (o : Outcome) (hlive : ∀ x ∈ pre, x.1 = false) :
    (streamLoop lib keywordList pre o).streamStopped = o.streamStopped ∧
    (streamLoop lib keywordList pre o).processed = o.processed + pre.length ∧
    (streamLoop lib keywordList pre o).wgDone = o.wgDone := by
  induction pre generalizing o with
  | nil => simp [streamLoop]
  | cons x pre ih =>
    obtain ⟨done, item⟩ := x
    have hd : done = false := hlive (done, item) (List.mem_cons_self _ _)
    subst hd
    simp only [streamLoop, Bool.false_eq_true, if_false]
    have hrec := ih { o with calls := processItem lib keywordList item o.calls,
                             processed := o.processed + 1 }
      (fun y hy => hlive y (List.mem_cons_of_mem _ hy))
    obtain ⟨h1, h2, h3⟩ := hrec
    refine ⟨h1, ?_, h3⟩
    rw [h2]; simp [Nat.add_assoc, Nat.add_comm 1]

theorem fetchTweets_calls (lib : Lib) (t : Twitter) (stream : List (Bool × Item)) :
    (fetchTweets lib t stream).calls =
      (streamLoop lib (Split t.KeywordsToTrack) stream start).calls := rfl

theorem fetchTweets_single (lib : Lib) (t : Twitter) (item : Item) :
    (fetchTweets lib t [(false, item)]).calls =
      processItem lib (Split t.KeywordsToTrack) item [] := by
  simp [fetchTweets, streamLoop]

theorem Contains_eq_decide (s substr : GoStr) :
    Contains s substr = decide (substr <:+: s) := by
  by_cases h : substr <:+: s
  · rw [(Contains_iff s substr).2 h]; simp [h]
  · have : Contains s substr = false := by
      cases hc : Contains s substr with
      | false => rfl
      | true => exact absurd ((Contains_iff s substr).1 hc) h
    rw [this]; simp [h]

theorem keywordCalls_keywordOf (lib : Lib) (tweet : Tweet) (fields : Fields) (time : Time)
    (base : Tags) (keywordList : List GoStr) :
    (keywordCalls lib tweet fields time base keywordList).map keywordOf =
      (((keywordList.map (ToLower lib)).filter
        (fun k => decide (k <:+: ToLower lib tweet.Text))).map some) := by
  induction keywordList with
  | nil => simp [keywordCalls]
  | cons keyword rest ih =>
    simp only [keywordCalls] at ih
    by_cases hm : ToLower lib keyword <:+: ToLower lib tweet.Text
    · simp [keywordCalls, List.filter_cons, Contains_eq_decide, hm, keywordOf,
        mapGet_mapSet_self]
      simpa [Contains_eq_decide] using ih
    · simp [keywordCalls, List.filter_cons, Contains_eq_decide, hm]
      simpa [Contains_eq_decide] using ih

theorem keywordCalls_isAddFields (lib : Lib) (tweet : Tweet) (fields : Fields) (time : Time)
    (base : Tags) (keywordList : List GoStr) :
    ∀ c ∈ keywordCalls lib tweet fields time base keywordList,
      ∃ keyword ∈ keywordList,
        c = AccCall.AddFields mTweets fields (mapSet base kKeyword (ToLower lib keyword)) time := by
  intro c hc
  simp only [keywordCalls, List.mem_map, List.mem_filter] at hc
  obtain ⟨keyword, ⟨hk, _⟩, rfl⟩ := hc
  exact ⟨keyword, hk, rfl⟩

theorem fetchTweets_append_live (lib : Lib) (t : Twitter) (pre rest : List (Bool × Item))
    (hlive : ∀ x ∈ pre, x.1 = false) :
    fetchTweets lib t (pre ++ rest) =
      { calls := (fetchTweets lib t pre).calls ++ (fetchTweets lib t rest).calls
        streamStopped := (fetchTweets lib t rest).streamStopped
        processed := pre.length + (fetchTweets lib t rest).processed
        wgDone := true } := by
  obtain ⟨h1, h2, _⟩ := streamLoop_live_flags lib (Split t.KeywordsToTrack) pre start hlive
  simp only [fetchTweets]
  rw [show ({ calls := [], streamStopped := false, processed := 0, wgDone := false } : Outcome)
      = start from rfl]
  rw [streamLoop_live _ _ _ _ _ hlive, streamLoop_from, h1, h2]
  simp [start]

theorem keywordCalls_no_match (lib : Lib) (tweet : Tweet) (fields : Fields) (time : Time)
    (base : Tags) (keywordList : List GoStr)
    (hno : ∀ k ∈ keywordList, ¬ (ToLower lib k <:+: ToLower lib tweet.Text)) :
    keywordCalls lib tweet fields time base keywordList = [] := by
  simp only [keywordCalls, List.map_eq_nil_iff, List.filter_eq_nil_iff, Contains_eq_decide,
    decide_eq_true_eq]
  exact hno

theorem tweetTags_lang (tweet : Tweet) :
    mapGet (tweetTags tweet) kLang = if tweet.Lang = [] then none else some tweet.Lang := by
  by_cases h : tweet.Lang = []
  · simp [tweetTags, h, mapGet]
  · simp [tweetTags, h, mapGet, mapSet]

theorem toNat_ofNat_small (n : Nat) (h : n < 0xd800) : (Char.ofNat n).toNat = n := by
  have hv : n.isValidChar := Or.inl h
  simp [Char.ofNat, hv, Char.ofNatAux, Char.toNat, UInt32.toNat]

theorem toLowerRune_idem (lib : Lib)
    (htbl : ∀ r : Char, 0x7F < r.toNat → toLowerRune lib (lib.caseTable r) = lib.caseTable r)
    (r : Char) : toLowerRune lib (toLowerRune lib r) = toLowerRune lib r := by
  by_cases h1 : r.toNat ≤ 0x7F
  · by_cases h2 : 'A'.toNat ≤ r.toNat ∧ r.toNat ≤ 'Z'.toNat
    · have hA : ('A'.toNat : Nat) = 65 := by decide
      have hZ : ('Z'.toNat : Nat) = 90 := by decide
      have ha : ('a'.toNat : Nat) = 97 := by decide
      have e : toLowerRune lib r = Char.ofNat (r.toNat + 32) := by
        unfold toLowerRune
        rw [if_pos h1, if_pos h2, ha, hA]
      rw [hA, hZ] at h2
      have hn : (Char.ofNat (r.toNat + 32)).toNat = r.toNat + 32 :=
        toNat_ofNat_small _ (by omega)
      rw [e]
      have h3 : (Char.ofNat (r.toNat + 32)).toNat ≤ 0x7F := by rw [hn]; omega
      have h4 : ¬ ('A'.toNat ≤ (Char.ofNat (r.toNat + 32)).toNat ∧
          (Char.ofNat (r.toNat + 32)).toNat ≤ 'Z'.toNat) := by
        rw [hn, hA, hZ]; omega
      simp only [toLowerRune, h3, h4, if_true, if_false]
    · have e : toLowerRune lib r = r := by simp only [toLowerRune, h1, h2, if_true, if_false]
      rw [e, e]
  · have e : toLowerRune lib r = lib.caseTable r := by simp only [toLowerRune, h1, if_false]
    rw [e]
    exact htbl r (by omega)

theorem ToLower_idem (lib : Lib)
    (htbl : ∀ r : Char, 0x7F < r.toNat → toLowerRune lib (lib.caseTable r) = lib.caseTable r)
    (s : GoStr) : ToLower lib (ToLower lib s) = ToLower lib s := by
  simp only [ToLower, List.map_map]
  apply List.map_congr_left
  intro r _
  exact toLowerRune_idem lib htbl r

theorem fetchTweets_calls_keyword (lib : Lib) (t : Twitter) (stream : List (Bool × Item)) :
    ∀ c ∈ (fetchTweets lib t stream).calls, isAddFields c = true →
      ∃ k ∈ Split t.KeywordsToTrack, keywordOf c = some (ToLower lib k) := by
  rw [fetchTweets_calls]
  induction stream with
  | nil => intro c hc; simp [streamLoop, start] at hc
  | cons x rest ih =>
    obtain ⟨done, item⟩ := x
    cases done with
    | true => intro c hc; simp [streamLoop, start] at hc
    | false =>
      intro c hc hf
      simp only [streamLoop, Bool.false_eq_true, if_false] at hc
      rw [streamLoop_from] at hc
      simp only [start, List.mem_append] at hc
      rcases hc with hc | hc
      · cases item with
        | other => simp [processItem] at hc
        | tweet tweet =>
          cases h : CreatedAtTime lib tweet with
          | error err =>
            rw [processItem_error _ _ _ _ _ h, List.nil_append, List.mem_singleton] at hc
            subst hc
            exact absurd hf (by simp [isAddFields])
          | ok time =>
            rw [processItem_ok _ _ _ _ _ h, List.nil_append] at hc
            obtain ⟨k, hk, rfl⟩ := keywordCalls_isAddFields _ _ _ _ _ _ c hc
            exact ⟨k, hk, by simp [keywordOf, mapGet_mapSet_self]⟩
      · exact ih c hc hf

theorem keywordCalls_length (lib : Lib) (tweet : Tweet) (fields : Fields) (time : Time)
    (base : Tags) (keywordList : List GoStr) :
    (keywordCalls lib tweet fields time base keywordList).length =
      (keywordList.filter
        (fun k => decide (ToLower lib k <:+: ToLower lib tweet.Text))).length := by
  simp only [keywordCalls, List.length_map, Contains_eq_decide]

theorem filter_map_lower (lib : Lib) (text : GoStr) (keywordList : List GoStr) :
    ((keywordList.map (ToLower lib)).filter (fun k => decide (k <:+: ToLower lib text))) =
      (keywordList.filter (fun k => decide (ToLower lib k <:+: ToLower lib text))).map
        (ToLower lib) := by
  rw [List.filter_map]; rfl

/-! ## The claims -/

/-- C1: for a tweet whose creation time parses, the `keyword` tag values of the calls
`fetchTweets` makes for it are the lowercased entries of the comma-split keyword list that
occur in the lowercased text, in list order; and each of these calls is an `AddFields`. -/
theorem C1_keyword_tags_in_list_order (lib : Lib) (t : Twitter) (tweet : Tweet) (time : Time)
    (hparse : CreatedAtTime lib tweet = Except.ok time) :
    (fetchTweets lib t [(false, Item.tweet tweet)]).calls.map keywordOf =
        (((Split t.KeywordsToTrack).map (ToLower lib)).filter
          (fun k => decide (k <:+: ToLower lib tweet.Text))).map some ∧
      ∀ c ∈ (fetchTweets lib t [(false, Item.tweet tweet)]).calls, isAddFields c = true := by
  rw [fetchTweets_single, processItem_ok _ _ _ _ _ hparse, List.nil_append]
  refine ⟨keywordCalls_keywordOf _ _ _ _ _ _, ?_⟩
  intro c hc
  obtain ⟨k, _, rfl⟩ := keywordCalls_isAddFields _ _ _ _ _ _ c hc
  rfl

theorem C1_witness :
    CreatedAtTime asciiLib tweet1 = Except.ok 0 ∧
      ((fetchTweets asciiLib catBirdDog [(false, Item.tweet tweet1)]).calls.map keywordOf =
          (((Split catBirdDog.KeywordsToTrack).map (ToLower asciiLib)).filter
            (fun k => decide (k <:+: ToLower asciiLib tweet1.Text))).map some ∧
        ∀ c ∈ (fetchTweets asciiLib catBirdDog [(false, Item.tweet tweet1)]).calls,
          isAddFields c = true) :=
  ⟨rfl, C1_keyword_tags_in_list_order asciiLib catBirdDog tweet1 0 rfl⟩

/-- C2: a tweet whose creation time does not parse, reached by the loop, gets exactly one
`AddError` call and no `AddFields` call, and the calls made for the items before and after
it are those of the same stream without that tweet. -/
theorem C2_unparseable_time_one_error (lib : Lib) (t : Twitter) (pre post : List (Bool × Item))
    (tweet : Tweet) (err : GoStr) (hlive : ∀ x ∈ pre, x.1 = false)
    (hparse : CreatedAtTime lib tweet = Except.error err) :
    (fetchTweets lib t [(false, Item.tweet tweet)]).calls = [AccCall.AddError err] ∧
      (fetchTweets lib t (pre ++ (false, Item.tweet tweet) :: post)).calls =
        (fetchTweets lib t pre).calls ++ AccCall.AddError err :: (fetchTweets lib t post).calls ∧
      (fetchTweets lib t (pre ++ post)).calls =
        (fetchTweets lib t pre).calls ++ (fetchTweets lib t post).calls ∧
      (fetchTweets lib t (pre ++ (false, Item.tweet tweet) :: post)).streamStopped =
        (fetchTweets lib t (pre ++ post)).streamStopped := by
  have h1 : (fetchTweets lib t [(false, Item.tweet tweet)]).calls = [AccCall.AddError err] := by
    rw [fetchTweets_single, processItem_error _ _ _ _ _ hparse, List.nil_append]
  have hone : ∀ x ∈ [((false, Item.tweet tweet) : Bool × Item)], x.1 = false := by
    intro x hx; rw [List.mem_singleton.1 hx]
  have h2 := fetchTweets_append_live lib t [(false, Item.tweet tweet)] post hone
  rw [List.singleton_append] at h2
  refine ⟨h1, ?_, ?_, ?_⟩
  · rw [fetchTweets_append_live lib t pre _ hlive, h2, h1]; rfl
  · rw [fetchTweets_append_live lib t pre _ hlive]
  · rw [fetchTweets_append_live lib t pre _ hlive, fetchTweets_append_live lib t pre _ hlive, h2]

theorem C2_witness :
    (∀ x ∈ [((false, Item.tweet tweet1) : Bool × Item)], x.1 = false) ∧
      CreatedAtTime asciiLib undatedDogTweet = Except.error errBad ∧
      ((fetchTweets asciiLib catBirdDog [(false, Item.tweet undatedDogTweet)]).calls =
          [AccCall.AddError errBad] ∧
        (fetchTweets asciiLib catBirdDog
            ([(false, Item.tweet tweet1)] ++
              (false, Item.tweet undatedDogTweet) :: [(false, Item.tweet dogTweet)])).calls =
          (fetchTweets asciiLib catBirdDog [(false, Item.tweet tweet1)]).calls ++
            AccCall.AddError errBad ::
              (fetchTweets asciiLib catBirdDog [(false, Item.tweet dogTweet)]).calls ∧
        (fetchTweets asciiLib catBirdDog
            ([(false, Item.tweet tweet1)] ++ [(false, Item.tweet dogTweet)])).calls =
          (fetchTweets asciiLib catBirdDog [(false, Item.tweet tweet1)]).calls ++
            (fetchTweets asciiLib catBirdDog [(false, Item.tweet dogTweet)]).calls ∧
        (fetchTweets asciiLib catBirdDog
            ([(false, Item.tweet tweet1)] ++
              (false, Item.tweet undatedDogTweet) :: [(false, Item.tweet dogTweet)])).streamStopped =
          (fetchTweets asciiLib catBirdDog
            ([(false, Item.tweet tweet1)] ++ [(false, Item.tweet dogTweet)])).streamStopped) :=
  ⟨by decide, rfl,
    C2_unparseable_time_one_error asciiLib catBirdDog [(false, Item.tweet tweet1)]
      [(false, Item.tweet dogTweet)] undatedDogTweet errBad (by decide) rfl⟩

/-- C3 as stated fails: with keyword `cat`, the tweet "I love my dog" whose creation time
is empty matches no keyword, and `fetchTweets` still makes an `AddError` call for it. -/
theorem C3_counterexample :
    (∀ k ∈ Split cat.KeywordsToTrack,
        ¬ (ToLower asciiLib k <:+: ToLower asciiLib undatedDogTweet.Text)) ∧
      (fetchTweets asciiLib cat [(false, Item.tweet undatedDogTweet)]).calls =
        [AccCall.AddError errBad] := by
  decide

/-- C3, amended: a tweet that matches no configured keyword gets no `AddFields` call; it
gets no call at all when its creation time parses, and the one `AddError` call when it
does not. -/
theorem C3_no_match_no_record (lib : Lib) (t : Twitter) (tweet : Tweet)
    (hno : ∀ k ∈ Split t.KeywordsToTrack, ¬ (ToLower lib k <:+: ToLower lib tweet.Text)) :
    (∀ c ∈ (fetchTweets lib t [(false, Item.tweet tweet)]).calls, isAddFields c = false) ∧
      (∀ time, CreatedAtTime lib tweet = Except.ok time →
        (fetchTweets lib t [(false, Item.tweet tweet)]).calls = []) ∧
      (∀ err, CreatedAtTime lib tweet = Except.error err →
        (fetchTweets lib t [(false, Item.tweet tweet)]).calls = [AccCall.AddError err]) := by
  have hok : ∀ time, CreatedAtTime lib tweet = Except.ok time →
      (fetchTweets lib t [(false, Item.tweet tweet)]).calls = [] := by
    intro time h
    rw [fetchTweets_single, processItem_ok _ _ _ _ _ h, List.nil_append]
    exact keywordCalls_no_match _ _ _ _ _ _ hno
  have herr : ∀ err, CreatedAtTime lib tweet = Except.error err →
      (fetchTweets lib t [(false, Item.tweet tweet)]).calls = [AccCall.AddError err] := by
    intro err h
    rw [fetchTweets_single, processItem_error _ _ _ _ _ h, List.nil_append]
  refine ⟨?_, hok, herr⟩
  intro c hc
  cases h : CreatedAtTime lib tweet with
  | error err =>
    rw [herr err h, List.mem_singleton] at hc
    subst hc; rfl
  | ok time =>
    rw [hok time h] at hc
    exact absurd hc (List.not_mem_nil c)

theorem C3_witness :
    (∀ k ∈ Split cat.KeywordsToTrack, ¬ (ToLower asciiLib k <:+: ToLower asciiLib dogTweet.Text)) ∧
      ((∀ c ∈ (fetchTweets asciiLib cat [(false, Item.tweet dogTweet)]).calls,
          isAddFields c = false) ∧
        (∀ time, CreatedAtTime asciiLib dogTweet = Except.ok time →
          (fetchTweets asciiLib cat [(false, Item.tweet dogTweet)]).calls = []) ∧
        (∀ err, CreatedAtTime asciiLib dogTweet = Except.error err →
          (fetchTweets asciiLib cat [(false, Item.tweet dogTweet)]).calls =
            [AccCall.AddError err])) :=
  ⟨by decide, C3_no_match_no_record asciiLib cat dogTweet (by decide)⟩

/-- C4: at the first item for which the cancellation signal is observed, the loop stops
the stream and returns: the calls made are those for the items before it, so neither that
item nor any later one is processed. -/
theorem C4_cancellation_checked_first (lib : Lib) (t : Twitter) (pre post : List (Bool × Item))
    (item : Item) (hlive : ∀ x ∈ pre, x.1 = false) :
    fetchTweets lib t (pre ++ (true, item) :: post) =
        { calls := (fetchTweets lib t pre).calls, streamStopped := true,
          processed := pre.length, wgDone := true } ∧
      (fetchTweets lib t pre).streamStopped = false ∧
      (fetchTweets lib t pre).processed = pre.length := by
  have h0 := fetchTweets_append_live lib t pre [] hlive
  rw [List.append_nil] at h0
  refine ⟨?_, ?_, ?_⟩
  · rw [fetchTweets_append_live lib t pre _ hlive]
    simp [fetchTweets, streamLoop]
  · rw [h0]; simp [fetchTweets, streamLoop]
  · rw [h0]; simp [fetchTweets, streamLoop]

theorem C4_witness :
    (∀ x ∈ [((false, Item.tweet tweet1) : Bool × Item)], x.1 = false) ∧
      (fetchTweets asciiLib catBirdDog
          ([(false, Item.tweet tweet1)] ++ (true, Item.tweet tweet1) ::
            [(false, Item.tweet tweet1)]) =
          { calls := (fetchTweets asciiLib catBirdDog [(false, Item.tweet tweet1)]).calls,
            streamStopped := true,
            processed := [((false, Item.tweet tweet1) : Bool × Item)].length, wgDone := true } ∧
        (fetchTweets asciiLib catBirdDog [(false, Item.tweet tweet1)]).streamStopped = false ∧
        (fetchTweets asciiLib catBirdDog [(false, Item.tweet tweet1)]).processed =
          [((false, Item.tweet tweet1) : Bool × Item)].length) :=
  ⟨by decide,
    C4_cancellation_checked_first asciiLib catBirdDog [(false, Item.tweet tweet1)]
      [(false, Item.tweet tweet1)] (Item.tweet tweet1) (by decide)⟩

/-- C5: a record emitted for a tweet carries the tag `lang` if and only if the tweet's
language code is non-empty, and the tag's value is then that language code. -/
theorem C5_lang_tag (lib : Lib) (t : Twitter) (tweet : Tweet) (c : AccCall)
    (hc : c ∈ (fetchTweets lib t [(false, Item.tweet tweet)]).calls)
    (hrec : isAddFields c = true) :
    ((langOf c).isSome = true ↔ tweet.Lang ≠ []) ∧ ∀ v, langOf c = some v → v = tweet.Lang := by
  rw [fetchTweets_single] at hc
  cases h : CreatedAtTime lib tweet with
  | error err =>
    rw [processItem_error _ _ _ _ _ h, List.nil_append, List.mem_singleton] at hc
    subst hc
    exact absurd hrec (by simp [isAddFields])
  | ok time =>
    rw [processItem_ok _ _ _ _ _ h, List.nil_append] at hc
    obtain ⟨k, _, rfl⟩ := keywordCalls_isAddFields _ _ _ _ _ _ c hc
    have hl : langOf (AccCall.AddFields mTweets (tweetFields tweet)
        (mapSet (tweetTags tweet) kKeyword (ToLower lib k)) time) =
        if tweet.Lang = [] then none else some tweet.Lang := by
      simp only [langOf]
      rw [mapGet_mapSet_ne _ _ _ _ kKeyword_ne_kLang, tweetTags_lang]
    rw [hl]
    by_cases hL : tweet.Lang = []
    · simp [hL]
    · simp only [hL, if_false, Option.isSome_some, ne_eq, not_false_eq_true, iff_true,
        Option.some.injEq, true_and]
      intro v hv; exact hv.symm

theorem C5_witness :
    AccCall.AddFields mTweets (tweetFields tweet1)
          [(kLang, "en".toList), (kKeyword, "cat".toList)] 0 ∈
        (fetchTweets asciiLib catBirdDog [(false, Item.tweet tweet1)]).calls ∧
      (((langOf (AccCall.AddFields mTweets (tweetFields tweet1)
            [(kLang, "en".toList), (kKeyword, "cat".toList)] 0)).isSome = true ↔
          tweet1.Lang ≠ []) ∧
        ∀ v, langOf (AccCall.AddFields mTweets (tweetFields tweet1)
            [(kLang, "en".toList), (kKeyword, "cat".toList)] 0) = some v → v = tweet1.Lang) :=
  ⟨by decide,
    C5_lang_tag asciiLib catBirdDog tweet1 _ (by decide) rfl⟩

/-- C6 as stated fails: with `KeywordsToTrack = "Cat"` the record emitted for a tweet
mentioning a cat has the `keyword` tag `cat`, which is not an entry of the comma-split
`["Cat"]`. -/
theorem C6_counterexample :
    Split upperCat.KeywordsToTrack = ["Cat".toList] ∧
      (fetchTweets asciiLib upperCat [(false, Item.tweet tweet1)]).calls.map keywordOf =
        [some "cat".toList] ∧
      ¬ ∀ c ∈ (fetchTweets asciiLib upperCat [(false, Item.tweet tweet1)]).calls,
          ∃ k ∈ Split upperCat.KeywordsToTrack, keywordOf c = some k := by
  decide

/-- C6, amended: in every run, the `keyword` tag of an emitted record is `ToLower` of an
entry of the comma-split of `KeywordsToTrack`; it is lowercase (left unchanged by `ToLower`)
as soon as the library's case table maps every non-ASCII rune to a rune that `ToLower`
leaves unchanged. -/
theorem C6_keyword_tag_is_lowered_keyword (lib : Lib) (t : Twitter)
    (stream : List (Bool × Item)) (c : AccCall)
    (htbl : ∀ r : Char, 0x7F < r.toNat → toLowerRune lib (lib.caseTable r) = lib.caseTable r)
    (hc : c ∈ (fetchTweets lib t stream).calls) (hrec : isAddFields c = true) :
    ∃ k ∈ Split t.KeywordsToTrack,
      keywordOf c = some (ToLower lib k) ∧ ToLower lib (ToLower lib k) = ToLower lib k := by
  obtain ⟨k, hk, hkw⟩ := fetchTweets_calls_keyword lib t stream c hc hrec
  exact ⟨k, hk, hkw, ToLower_idem lib htbl k⟩

theorem C6_witness :
    (∀ r : Char, 0x7F < r.toNat →
        toLowerRune asciiLib (asciiLib.caseTable r) = asciiLib.caseTable r) ∧
      AccCall.AddFields mTweets (tweetFields tweet1)
          [(kLang, "en".toList), (kKeyword, "cat".toList)] 0 ∈
        (fetchTweets asciiLib upperCat [(false, Item.tweet tweet1)]).calls ∧
      ∃ k ∈ Split upperCat.KeywordsToTrack,
        keywordOf (AccCall.AddFields mTweets (tweetFields tweet1)
            [(kLang, "en".toList), (kKeyword, "cat".toList)] 0) = some (ToLower asciiLib k) ∧
          ToLower asciiLib (ToLower asciiLib k) = ToLower asciiLib k :=
  have htbl : ∀ r : Char, 0x7F < r.toNat →
      toLowerRune asciiLib (asciiLib.caseTable r) = asciiLib.caseTable r := by
    intro r hr
    have h : ¬ r.toNat ≤ 0x7F := by omega
    simp only [toLowerRune, asciiLib, h, if_false]
  ⟨htbl, by decide,
    C6_keyword_tag_is_lowered_keyword asciiLib upperCat [(false, Item.tweet tweet1)] _ htbl
      (by decide) rfl⟩

/-- C7 as stated fails: with `KeywordsToTrack = "cat,Cat"` a tweet mentioning a cat matches
both configured keywords and gets two `AddFields` calls, both with the `keyword` tag `cat`. -/
theorem C7_counterexample :
    CreatedAtTime asciiLib tweet1 = Except.ok 0 ∧
      ((Split catCat.KeywordsToTrack).filter
        (fun k => decide (ToLower asciiLib k <:+: ToLower asciiLib tweet1.Text))).length = 2 ∧
      (fetchTweets asciiLib catCat [(false, Item.tweet tweet1)]).calls.map keywordOf =
        [some "cat".toList, some "cat".toList] ∧
      ¬ ((fetchTweets asciiLib catCat [(false, Item.tweet tweet1)]).calls.map keywordOf).Nodup :=
  ⟨rfl, by decide, by decide, by decide⟩

/-- C7, amended: for a tweet whose creation time parses and whose text matches `N` entries
of the keyword list (counted with repetition), `fetchTweets` makes exactly `N` calls, each
an `AddFields` with measurement `tweets`, the same fields map and the same timestamp; the
`keyword` tag values are pairwise different exactly when the matching entries are pairwise
different once lowercased. -/
theorem C7_one_record_per_match (lib : Lib) (t : Twitter) (tweet : Tweet) (time : Time)
    (hparse : CreatedAtTime lib tweet = Except.ok time) :
    (fetchTweets lib t [(false, Item.tweet tweet)]).calls.length =
        ((Split t.KeywordsToTrack).filter
          (fun k => decide (ToLower lib k <:+: ToLower lib tweet.Text))).length ∧
      (∀ c ∈ (fetchTweets lib t [(false, Item.tweet tweet)]).calls,
        ∃ tags, c = AccCall.AddFields mTweets (tweetFields tweet) tags time) ∧
      (((fetchTweets lib t [(false, Item.tweet tweet)]).calls.map keywordOf).Nodup ↔
        (((Split t.KeywordsToTrack).filter
          (fun k => decide (ToLower lib k <:+: ToLower lib tweet.Text))).map
            (ToLower lib)).Nodup) := by
  rw [fetchTweets_single, processItem_ok _ _ _ _ _ hparse, List.nil_append]
  refine ⟨keywordCalls_length _ _ _ _ _ _, ?_, ?_⟩
  · intro c hc
    obtain ⟨k, _, rfl⟩ := keywordCalls_isAddFields _ _ _ _ _ _ c hc
    exact ⟨_, rfl⟩
  · rw [keywordCalls_keywordOf, filter_map_lower]
    exact List.nodup_map_iff (Option.some_injective _)

theorem C7_witness :
    CreatedAtTime asciiLib tweet1 = Except.ok 0 ∧
      ((fetchTweets asciiLib catBirdDog [(false, Item.tweet tweet1)]).calls.length =
          ((Split catBirdDog.KeywordsToTrack).filter
            (fun k => decide (ToLower asciiLib k <:+: ToLower asciiLib tweet1.Text))).length ∧
        (∀ c ∈ (fetchTweets asciiLib catBirdDog [(false, Item.tweet tweet1)]).calls,
          ∃ tags, c = AccCall.AddFields mTweets (tweetFields tweet1) tags 0) ∧
        (((fetchTweets asciiLib catBirdDog [(false, Item.tweet tweet1)]).calls.map keywordOf).Nodup ↔
          (((Split catBirdDog.KeywordsToTrack).filter
            (fun k => decide (ToLower asciiLib k <:+: ToLower asciiLib tweet1.Text))).map
              (ToLower asciiLib)).Nodup)) :=
  ⟨rfl, C7_one_record_per_match asciiLib catBirdDog tweet1 0 rfl⟩

/-- C8: when `KeywordsToTrack` is empty or ends with a comma, the comma-split keyword list
contains the empty string, and every tweet whose creation time parses gets a record whose
`keyword` tag is the empty string. -/
theorem C8_empty_keyword_always_matches (lib : Lib) (t : Twitter) (tweet : Tweet) (time : Time)
    (hkw : t.KeywordsToTrack = [] ∨ ∃ a, t.KeywordsToTrack = a ++ [','])
    (hparse : CreatedAtTime lib tweet = Except.ok time) :
    [] ∈ Split t.KeywordsToTrack ∧
      ∃ c ∈ (fetchTweets lib t [(false, Item.tweet tweet)]).calls,
        isAddFields c = true ∧ keywordOf c = some [] := by
  have hmem : ([] : GoStr) ∈ Split t.KeywordsToTrack := by
    rcases hkw with h | ⟨a, h⟩
    · rw [h]; simp [Split]
    · rw [h]; exact Split_append_comma a
  refine ⟨hmem, ?_⟩
  rw [fetchTweets_single, processItem_ok _ _ _ _ _ hparse, List.nil_append]
  refine ⟨AccCall.AddFields mTweets (tweetFields tweet)
    (mapSet (tweetTags tweet) kKeyword (ToLower lib [])) time, ?_, rfl, ?_⟩
  · simp only [keywordCalls, List.mem_map, List.mem_filter]
    exact ⟨[], ⟨hmem, by rw [ToLower_nil]; exact Contains_nil _⟩, rfl⟩
  · simp only [keywordOf, mapGet_mapSet_self, ToLower_nil]

theorem C8_witness :
    (catComma.KeywordsToTrack = [] ∨ ∃ a, catComma.KeywordsToTrack = a ++ [',']) ∧
      CreatedAtTime asciiLib dogTweet = Except.ok 0 ∧
      ([] ∈ Split catComma.KeywordsToTrack ∧
        ∃ c ∈ (fetchTweets asciiLib catComma [(false, Item.tweet dogTweet)]).calls,
          isAddFields c = true ∧ keywordOf c = some []) :=
  ⟨Or.inr ⟨"cat".toList, rfl⟩, rfl,
    C8_empty_keyword_always_matches asciiLib catComma dogTweet 0
      (Or.inr ⟨"cat".toList, rfl⟩) rfl⟩

/-- C9 as stated fails: `KeywordsToTrack = "Cat, dog,Cat"` is split into `Cat`, ` dog`
(with its leading blank) and `Cat` again; the list has an entry that is not lowercase, an
entry that starts with a blank and a repeated entry, and all three are matched. -/
theorem C9_counterexample :
    Split mixed.KeywordsToTrack = ["Cat".toList, " dog".toList, "Cat".toList] ∧
      ¬ (∀ k ∈ Split mixed.KeywordsToTrack, ToLower asciiLib k = k) ∧
      ¬ (∀ k ∈ Split mixed.KeywordsToTrack, k.head? ≠ some ' ' ∧ k.getLast? ≠ some ' ') ∧
      ¬ (Split mixed.KeywordsToTrack).Nodup ∧
      (fetchTweets asciiLib mixed [(false, Item.tweet tweet1)]).calls.map keywordOf =
        [some "cat".toList, some " dog".toList, some "cat".toList] :=
  ⟨by decide, by decide, by decide, by decide, by decide⟩

/-- C9, amended: the keyword list `fetchTweets` matches against is the plain comma-split of
`KeywordsToTrack`: it is not empty, no entry contains a comma, and joining the entries with
commas gives back the configured string, so entries are kept as written; an entry is
lowercased only when it is compared with the text and written to the `keyword` tag. -/
theorem C9_keyword_list_is_plain_split (lib : Lib) (t : Twitter) :
    Split t.KeywordsToTrack ≠ [] ∧
      (∀ k ∈ Split t.KeywordsToTrack, ',' ∉ k) ∧
      Join (Split t.KeywordsToTrack) = t.KeywordsToTrack ∧
      ∀ (stream : List (Bool × Item)), ∀ c ∈ (fetchTweets lib t stream).calls,
        isAddFields c = true →
          ∃ k ∈ Split t.KeywordsToTrack, keywordOf c = some (ToLower lib k) :=
  ⟨Split_ne_nil _, Split_no_comma _, Join_Split _, fetchTweets_calls_keyword lib t⟩

/-- C10 as stated fails: on a plugin value on which `Start` was never called, `cancel` is
nil and `Stop` panics. -/
theorem C10_counterexample :
    (Twitter.new [] [] [] [] "cat".toList).cancel = none ∧
      Stop (Twitter.new [] [] [] [] "cat".toList) = StopResult.panic :=
  ⟨rfl, rfl⟩

/-- C10, amended: `Stop` panics exactly when `cancel` or `wg` is nil, which is the case of
a value on which `Start` was never called; after `Start` it cancels the context and waits
for the loop, and once the loop has called `Done` it returns, with the configuration and
the other fields unchanged. -/
theorem C10_stop_needs_start (t : Twitter) :
    (Stop t = StopResult.panic ↔ t.cancel = none ∨ t.wg = none) ∧
      Stop (Start t) = StopResult.waiting { Start t with ctx := some true } ∧
      Stop (wgDone (Start t)) = StopResult.returned { wgDone (Start t) with ctx := some true } := by
  refine ⟨?_, rfl, rfl⟩
  cases hc : t.cancel with
  | none => simp [Stop, hc]
  | some u =>
    cases hw : t.wg with
    | none => simp [Stop, hc, hw]
    | some n => cases n <;> simp [Stop, hc, hw]

end TwitterPlugin
